import Mathlib

/-!
Verification development for the phpIPAM-to-NetBox import script
(src/import_phpipam_to_netbox.py).

Python strings are modelled as `List Char`.  The Python standard library
functions `ipaddress.ip_address` and `ipaddress.ip_network` (strict mode),
which the script uses for validation, are modelled executably below;
IPv6 scope ids (the percent-zone syntax) and non-ASCII digits are not
modelled.  Spreadsheet cells are modelled by `Cell` (a string, a non-string
scalar, or the NaN/None null marker), and the NetBox client by an explicit
inventory of subnet and address keys together with a per-intent failure
oracle; a raised client exception is represented by the oracle values
`failOnFind` and `failOnCreate`.
-/

set_option maxRecDepth 4000
set_option linter.unusedVariables false

/-- Characters of a string literal, used to state concrete facts. -/
def ofS (s : String) : List Char := s.data

/-- Whitespace characters stripped by the Python str.strip method
(ASCII subset). -/
def isSpace (c : Char) : Bool :=
  c = ' ' || c = '\t' || c = '\n' || c = '\r' ||
  c = Char.ofNat 11 || c = Char.ofNat 12

/-- Model of the Python str.strip method: drop leading and trailing
whitespace. -/
def strip (s : List Char) : List Char :=
  ((s.dropWhile isSpace).reverse.dropWhile isSpace).reverse

/-- Model of the Python str.lower method (ASCII subset). -/
def lowerChars (s : List Char) : List Char := s.map Char.toLower

/-- Split a character list at every occurrence of a single-character
separator, as the Python str.split method does. -/
def splitCh (sep : Char) : List Char → List (List Char)
  | [] => [[]]
  | c :: rest =>
    if c = sep then [] :: splitCh sep rest
    else
      match splitCh sep rest with
      | [] => [[c]]
      | p :: ps => (c :: p) :: ps

/-- Split at every occurrence of the three-character separator used by
the subnet header format, as the Python expression splits on it. -/
def splitDash : List Char → List (List Char)
  | ' ' :: '-' :: ' ' :: rest => [] :: splitDash rest
  | c :: rest =>
    (match splitDash rest with
     | [] => [[c]]
     | p :: ps => (c :: p) :: ps)
  | [] => [[]]

/-- Model of the Python str.join method. -/
def joinWith (sep : List Char) : List (List Char) → List Char
  | [] => []
  | [p] => p
  | p :: q :: ps => p ++ sep ++ joinWith sep (q :: ps)

/-- ASCII decimal digit test. -/
def isDigit (c : Char) : Bool := '0' ≤ c && c ≤ '9'

/-- ASCII hexadecimal digit test, matching the digit set accepted by the
Python ipaddress IPv6 parser. -/
def isHexDigit (c : Char) : Bool :=
  isDigit c || ('a' ≤ c && c ≤ 'f') || ('A' ≤ c && c ≤ 'F')

/-- Numeric value of a decimal digit string. -/
def digitsToNat (s : List Char) : Nat :=
  s.foldl (fun a c => a * 10 + (c.toNat - 48)) 0

/-- Numeric value of one hexadecimal digit. -/
def hexDigitVal (c : Char) : Nat :=
  if isDigit c then c.toNat - 48
  else if 'a' ≤ c && c ≤ 'f' then c.toNat - 87
  else if 'A' ≤ c && c ≤ 'F' then c.toNat - 55
  else 0

/-- Numeric value of a hexadecimal digit string. -/
def hexVal (s : List Char) : Nat :=
  s.foldl (fun a c => a * 16 + hexDigitVal c) 0

/-- Modelled from the Python ipaddress octet parser: an IPv4 octet is a
nonempty all-digit string of at most three characters, without leading
zeros, whose value is at most 255. -/
def parseOctet (s : List Char) : Option Nat :=
  if s.isEmpty then none
  else if !(s.all isDigit) then none
  else if decide (3 < s.length) then none
  else if decide (1 < s.length) && (s.headD ' ' == '0') then none
  else if decide (255 < digitsToNat s) then none
  else some (digitsToNat s)

/-- Modelled from the Python ipaddress IPv4 string parser: four
dot-separated octets; returns the 32-bit integer value. -/
def parseIPv4 (s : List Char) : Option Nat :=
  match splitCh '.' s with
  | [a, b, c, d] =>
    match parseOctet a, parseOctet b, parseOctet c, parseOctet d with
    | some x, some y, some z, some w =>
      some (((x * 256 + y) * 256 + z) * 256 + w)
    | _, _, _, _ => none
  | _ => none

/-- Parse one IPv6 hextet: a nonempty hexadecimal-digit string of at most
four characters, as the Python ipaddress hextet parser accepts. -/
def parseHextet (s : List Char) : Option Nat :=
  if !s.isEmpty && s.all isHexDigit && decide (s.length ≤ 4) then some (hexVal s)
  else none

/-- Fold a run of hextets into an accumulated integer, failing if any
hextet is invalid. -/
def hextetsVal : Nat → List (List Char) → Option Nat
  | acc, [] => some acc
  | acc, p :: ps =>
    match parseHextet p with
    | none => none
    | some v => hextetsVal (acc * 65536 + v) ps

/-- Indices of empty colon-separated parts that are neither first nor
last, the candidate positions of the double-colon gap. -/
def innerEmpties (ps : List (List Char)) : List Nat :=
  (List.range ps.length).filter
    (fun i => decide (0 < i) && decide (i + 1 < ps.length) && (ps.getD i [' ']).isEmpty)

/-- Handle an empty leading part: a leading colon is only allowed as the
first half of a double colon, mirroring the Python ipaddress check. -/
def adjustHead : List (List Char) → Option (List (List Char))
  | [] :: rest => if rest.isEmpty then some [] else none
  | l => some l

/-- Handle an empty trailing part: a trailing colon is only allowed as the
second half of a double colon, mirroring the Python ipaddress check. -/
def adjustLast (l : List (List Char)) : Option (List (List Char)) :=
  match l.getLast? with
  | some [] => if l.length = 1 then some [] else none
  | _ => some l

/-- Core of the Python ipaddress IPv6 parser, applied to the list of
colon-separated parts after embedded-IPv4 replacement: either no inner
empty part and exactly eight hextets, or one inner empty part standing
for at least one zero hextet. -/
def parseIPv6Core (ps : List (List Char)) : Option Nat :=
  if decide (9 < ps.length) then none
  else
    match innerEmpties ps with
    | [] => if ps.length = 8 then hextetsVal 0 ps else none
    | [k] =>
      match adjustHead (ps.take k) with
      | none => none
      | some hi =>
        match adjustLast (ps.drop (k + 1)) with
        | none => none
        | some lo =>
          if decide (8 ≤ hi.length + lo.length) then none
          else
            match hextetsVal 0 hi with
            | none => none
            | some hv =>
              match hextetsVal 0 lo with
              | none => none
              | some lv => some (hv * 2 ^ (16 * (8 - hi.length)) + lv)
    | _ => none

/-- Render a 16-bit value in lowercase hexadecimal without leading zeros,
as the percent-x format does for the embedded-IPv4 replacement. -/
def natToHex (n : Nat) : List Char :=
  let ds := [n / 4096 % 16, n / 256 % 16, n / 16 % 16, n % 16].map
    (fun d => (ofS ("0123456789abcdef")).getD d '0')
  match ds.dropWhile (fun c => c = '0') with
  | [] => ['0']
  | l => l

/-- Modelled from the Python ipaddress IPv6 string parser (scope ids are
not modelled): at least three colon-separated parts, an optional embedded
IPv4 address in the last part, and at most one double colon; returns the
128-bit integer value. -/
def parseIPv6 (s : List Char) : Option Nat :=
  let parts := splitCh ':' s
  if decide (parts.length < 3) then none
  else
    match parts.getLast? with
    | none => none
    | some last =>
      if '.' ∈ last then
        match parseIPv4 last with
        | none => none
        | some v4 =>
          parseIPv6Core (parts.dropLast ++ [natToHex (v4 / 65536), natToHex (v4 % 65536)])
      else parseIPv6Core parts

/-- Model of the Python ip_address library function restricted to its
version field: IPv4 is tried first, then IPv6; `none` models the
ValueError raised for an invalid address. -/
def ip_address_version (s : List Char) : Option Nat :=
  if (parseIPv4 s).isSome then some 4
  else if (parseIPv6 s).isSome then some 6
  else none

/-- Parse a prefix length given as a decimal string, as the Python
ipaddress prefix parser does: nonempty, all digits, at most the maximum
length. -/
def prefixStringVal (maxLen : Nat) (s : List Char) : Option Nat :=
  if !s.isEmpty && s.all isDigit then
    if decide (digitsToNat s ≤ maxLen) then some (digitsToNat s) else none
  else none

/-- Recover a prefix length from a mask given as an address integer,
trying the netmask form first and then the hostmask form, as the Python
ipaddress mask parser does. -/
def maskPrefixLen (width m : Nat) : Option Nat :=
  match (List.range (width + 1)).find? (fun p => m == 2 ^ width - 2 ^ (width - p)) with
  | some p => some p
  | none => (List.range (width + 1)).find? (fun p => m == 2 ^ (width - p) - 1)

/-- IPv4 mask argument: a decimal prefix length or a dotted netmask or
hostmask. -/
def v4MakeMask (s : List Char) : Option Nat :=
  match prefixStringVal 32 s with
  | some p => some p
  | none =>
    match parseIPv4 s with
    | some m => maskPrefixLen 32 m
    | none => none

/-- IPv6 mask argument: only a decimal prefix length is accepted. -/
def v6MakeMask (s : List Char) : Option Nat := prefixStringVal 128 s

/-- Model of the Python ip_network library function in strict mode,
restricted to validity: at most one slash, a valid address part, a valid
mask part (a missing mask means the full length), and no host bits set.
A bare valid host address is therefore a valid network. -/
def ip_network_valid (s : List Char) : Bool :=
  match splitCh '/' s with
  | [a] => (parseIPv4 a).isSome || (parseIPv6 a).isSome
  | [a, p] =>
    (match parseIPv4 a, v4MakeMask p with
     | some ai, some pl => ai % 2 ^ (32 - pl) == 0
     | _, _ => false) ||
    (match parseIPv6 a, v6MakeMask p with
     | some ai, some pl => ai % 2 ^ (128 - pl) == 0
     | _, _ => false)
  | _ => false

/-- A spreadsheet cell as produced by the Excel reader: a string, a
non-string scalar (abstracted to an integer), or the NaN/None null
marker. -/
inductive Cell where
  | cstr : List Char → Cell
  | cnum : Int → Cell
  | cnone : Cell
deriving DecidableEq, Repr

/-- Model of the pandas notna test: false exactly on the null marker
(NaN or None). -/
def notNA : Cell → Bool
  | Cell.cnone => false
  | _ => true

/-- Python truthiness of a cell value: an empty string and the zero
scalar are falsy; NaN is truthy but is always guarded by notNA. -/
def cellTruthy : Cell → Bool
  | Cell.cstr s => !s.isEmpty
  | Cell.cnum n => decide (n ≠ 0)
  | Cell.cnone => true

/-- Model of the Python str conversion of a cell value. -/
def strOfCell : Cell → List Char
  | Cell.cstr s => s
  | Cell.cnum n => (toString n).data
  | Cell.cnone => ofS ("nan")

/-- Column access with the out-of-range guard of the source: the value of
row.iloc at an index, or the null marker when the row is too short. -/
def getCol : List Cell → Nat → Cell
  | [], _ => Cell.cnone
  | c :: _, 0 => c
  | _ :: r, i + 1 => getCol r i

/-- The literal column-title string compared against in the source. -/
def ipAddressLit : List Char := ofS ("ip address")

/-- The literal three-character separator of subnet header cells. -/
def sepDash : List Char := ofS (" - ")

/-- Model of parse_subnet_header from the source: a non-string cell or a
cell without a slash yields nothing; otherwise the cell is split on the
separator, at least two segments are required, the first segment is
stripped and validated as an IP network, and the remaining segments are
rejoined as the description.  A valid network string is nonempty, so the
truthiness test on the returned subnet in the caller is the same as the
is-some test here. -/
def parse_subnet_header (header : Cell) : Option (List Char × List Char) :=
  match header with
  | Cell.cstr s =>
    if '/' ∈ s then
      match splitDash s with
      | p0 :: p1 :: ps =>
        if ip_network_valid (strip p0) then
          some (strip p0, joinWith sepDash (p1 :: ps))
        else none
      | _ => none
    else none
  | _ => none

/-- The classification of one row recovered by the per-row logic of
process_data. -/
inductive RowKind where
  | subnetHeader : List Char → List Char → RowKind
  | columnTitle : RowKind
  | addressData : List Char → Cell → Cell → Cell → Cell → Cell → Cell → Cell → Cell → RowKind
  | noise : RowKind
deriving DecidableEq, Repr

/-- The address-row arm of process_data: a non-null first cell whose
stripped string form parses as a host address yields an AddressData row
with columns one through eight read positionally; the ValueError of an
invalid address is modelled by the none branch, which yields Noise. -/
def classifyAddr (first : Cell) (row : List Cell) : RowKind :=
  if notNA first then
    match ip_address_version (strip (strOfCell first)) with
    | some _ =>
      RowKind.addressData (strip (strOfCell first))
        (getCol row 1) (getCol row 2) (getCol row 3) (getCol row 4)
        (getCol row 5) (getCol row 6) (getCol row 7) (getCol row 8)
    | none => RowKind.noise
  else RowKind.noise

/-- The per-row branching of process_data: for a string first cell, first
the subnet-header parse, then the exact lowercased comparison with the
column-title literal, then the address parse; a non-string first cell
goes directly to the address parse. -/
def classify (row : List Cell) : RowKind :=
  match getCol row 0 with
  | Cell.cstr s =>
    match parse_subnet_header (Cell.cstr s) with
    | some (sub, d) => RowKind.subnetHeader sub d
    | none =>
      if lowerChars s = ipAddressLit then RowKind.columnTitle
      else classifyAddr (Cell.cstr s) row
  | first => classifyAddr first row

/-- A reconciliation intent: the creation request a classified row feeds
to create_prefix or create_ip_address, with the argument order of the
create_ip_address call in process_data. -/
inductive Intent where
  | createSubnet : List Char → List Char → Intent
  | createAddress : List Char → Cell → Cell → Cell → Cell → Cell → Cell → Cell → Intent
deriving DecidableEq, Repr

/-- One step of the row loop of process_data, restricted to its parsing
effect: the current-subnet context and the intent the row emits.  A
subnet header replaces the context and emits a subnet intent; an address
row emits an address intent built from the columns that process_data
passes to create_ip_address; title and noise rows emit nothing. -/
def processRow (ctx : Option (List Char × List Char)) (row : List Cell) :
    Option (List Char × List Char) × List Intent :=
  match classify row with
  | RowKind.subnetHeader c d => (some (c, d), [Intent.createSubnet c d])
  | RowKind.columnTitle => (ctx, [])
  | RowKind.addressData ip _ d h m o dv p n =>
    (ctx, [Intent.createAddress ip h d m o dv p n])
  | RowKind.noise => (ctx, [])

/-- The intent sequence of a row stream, threading the current-subnet
context left to right. -/
def parseIntentsFrom (ctx : Option (List Char × List Char)) :
    List (List Cell) → List Intent
  | [] => []
  | row :: rows =>
    (processRow ctx row).2 ++ parseIntentsFrom (processRow ctx row).1 rows

/-- The remote inventory state visible through the NetBox client: the set
of subnet strings and masked address strings for which a get call finds
an existing record.  A create call adds the corresponding key. -/
structure Inventory where
  prefixes : List (List Char)
  addresses : List (List Char)
deriving DecidableEq, Repr

/-- The five counters of the stats dictionary of the importer. -/
structure Stats where
  prefixes_created : Nat
  prefixes_skipped : Nat
  ips_created : Nat
  ips_skipped : Nat
  errors : Nat
deriving DecidableEq, Repr

/-- The initial stats dictionary: all counters zero. -/
def stats0 : Stats := ⟨0, 0, 0, 0, 0⟩

/-- The run mode selected by the DRY_RUN flag. -/
inductive Mode where
  | dryRun : Mode
  | apply : Mode
deriving DecidableEq, Repr

/-- Failure oracle for the client calls made while processing one intent:
no failure, an exception raised by the get call, or an exception raised
by the create call if one is made. -/
inductive ClientFail where
  | noFail : ClientFail
  | failOnFind : ClientFail
  | failOnCreate : ClientFail
deriving DecidableEq, Repr

/-- A call issued to the NetBox client, recorded for the frame
properties; the constant status field of create calls is omitted. -/
inductive Call where
  | findSubnet : List Char → Call
  | createSubnet : List Char → List Char → Call
  | findAddress : List Char → Call
  | createAddress : List Char → Cell → List Char → Call
deriving DecidableEq, Repr

/-- Model of create_prefix from the source: in dry-run mode the created
counter is incremented and no client call is made; otherwise the prefix
is looked up, an existing one increments the skipped counter, and a
missing one is created with the description truncated to 200 characters.
A client exception, modelled by the oracle, increments the errors counter
and leaves the inventory unchanged. -/
def create_prefix (mode : Mode) (o : ClientFail) (inv : Inventory) (st : Stats)
    (subnet description : List Char) : Inventory × Stats × List Call :=
  match mode with
  | Mode.dryRun => (inv, { st with prefixes_created := st.prefixes_created + 1 }, [])
  | Mode.apply =>
    match o with
    | ClientFail.failOnFind =>
      (inv, { st with errors := st.errors + 1 }, [Call.findSubnet subnet])
    | o' =>
      if subnet ∈ inv.prefixes then
        (inv, { st with prefixes_skipped := st.prefixes_skipped + 1 },
         [Call.findSubnet subnet])
      else
        let desc := if description.isEmpty then [] else description.take 200
        match o' with
        | ClientFail.failOnCreate =>
          (inv, { st with errors := st.errors + 1 },
           [Call.findSubnet subnet, Call.createSubnet subnet desc])
        | _ =>
          ({ inv with prefixes := subnet :: inv.prefixes },
           { st with prefixes_created := st.prefixes_created + 1 },
           [Call.findSubnet subnet, Call.createSubnet subnet desc])

/-- The full-length mask suffix appended to a host address of the given
version, as the format string in create_ip_address builds it. -/
def maskSuffix (v : Nat) : List Char :=
  if v = 4 then ofS ("/32") else ofS ("/128")

/-- Model of create_ip_address from the source: the address is validated
first (an invalid one is silently dropped by the ValueError handler, in
every mode), and the masked address is built; dry-run increments the
created counter without any client call; otherwise the masked address is
looked up, an existing one increments the skipped counter, and a missing
one is created with the dns name from the hostname cell and a description
joined from the description cell and the note cell and truncated to 200
characters.  A client exception increments the errors counter. -/
def create_ip_address (mode : Mode) (o : ClientFail) (inv : Inventory) (st : Stats)
    (ip : List Char) (hostname description mac owner device port note : Cell) :
    Inventory × Stats × List Call :=
  match ip_address_version ip with
  | none => (inv, st, [])
  | some v =>
    let ip_with_mask := ip ++ maskSuffix v
    match mode with
    | Mode.dryRun => (inv, { st with ips_created := st.ips_created + 1 }, [])
    | Mode.apply =>
      match o with
      | ClientFail.failOnFind =>
        (inv, { st with errors := st.errors + 1 }, [Call.findAddress ip_with_mask])
      | o' =>
        if ip_with_mask ∈ inv.addresses then
          (inv, { st with ips_skipped := st.ips_skipped + 1 },
           [Call.findAddress ip_with_mask])
        else
          let desc_parts :=
            (if notNA description && cellTruthy description
             then [strOfCell description] else []) ++
            (if notNA note && cellTruthy note
             then [ofS ("Note: ") ++ strOfCell note] else [])
          let full_description := joinWith (ofS (" | ")) desc_parts
          let stored := if full_description.isEmpty then [] else full_description.take 200
          let dns := if notNA hostname then hostname else Cell.cstr []
          match o' with
          | ClientFail.failOnCreate =>
            (inv, { st with errors := st.errors + 1 },
             [Call.findAddress ip_with_mask,
              Call.createAddress ip_with_mask dns stored])
          | _ =>
            ({ inv with addresses := ip_with_mask :: inv.addresses },
             { st with ips_created := st.ips_created + 1 },
             [Call.findAddress ip_with_mask,
              Call.createAddress ip_with_mask dns stored])

/-- Dispatch one intent to the corresponding create function of the
source. -/
def reconcileStep (mode : Mode) (o : ClientFail) (inv : Inventory) (st : Stats) :
    Intent → Inventory × Stats × List Call
  | Intent.createSubnet c d => create_prefix mode o inv st c d
  | Intent.createAddress ip h d m ow dev p n =>
    create_ip_address mode o inv st ip h d m ow dev p n

/-- Run the reconciliation loop over an intent sequence, consuming one
failure-oracle entry per intent (a missing entry means no failure) and
accumulating the inventory, the counters and the client-call trace. -/
def reconcile (mode : Mode) : List Intent → List ClientFail → Inventory → Stats →
    Inventory × Stats × List Call
  | [], _, inv, st => (inv, st, [])
  | i :: rest, oracle, inv, st =>
    let r1 := reconcileStep mode (oracle.headD ClientFail.noFail) inv st i
    let r2 := reconcile mode rest oracle.tail r1.1 r1.2.1
    (r2.1, r2.2.1, r1.2.2 ++ r2.2.2)

/-- The whole run of process_data on a row stream.  The source
interleaves row classification with the create calls in one loop; the
composition of the parser with the reconciler is the same function
because classification depends only on the row content, never on the
client or the counters. -/
def process_data (mode : Mode) (oracle : List ClientFail)
    (rows : List (List Cell)) (inv : Inventory) : Inventory × Stats × List Call :=
  reconcile mode (parseIntentsFrom none rows) oracle inv stats0

/-- Test for a subnet-creation intent. -/
def isSubnetIntent : Intent → Bool
  | Intent.createSubnet _ _ => true
  | _ => false

/-- Test for an address-creation intent whose address is valid; invalid
addresses are silently dropped by create_ip_address. -/
def isValidAddressIntent : Intent → Bool
  | Intent.createAddress ip _ _ _ _ _ _ _ => (ip_address_version ip).isSome
  | _ => false

/-- Number of subnet-creation intents in a sequence. -/
def countSubnetIntents : List Intent → Nat
  | [] => 0
  | i :: r => countSubnetIntents r + (if isSubnetIntent i then 1 else 0)

/-- Number of valid address-creation intents in a sequence. -/
def countValidAddressIntents : List Intent → Nat
  | [] => 0
  | i :: r => countValidAddressIntents r + (if isValidAddressIntent i then 1 else 0)

/-- An intent whose target record is already present in the inventory, so
that the lookup in apply mode finds it. -/
def intentPlaced (inv : Inventory) : Intent → Prop
  | Intent.createSubnet c _ => c ∈ inv.prefixes
  | Intent.createAddress ip _ _ _ _ _ _ _ =>
    ∀ v, ip_address_version ip = some v → (ip ++ maskSuffix v) ∈ inv.addresses

/-- Whether processing the given intent in apply mode under the given
oracle raises a client exception: the get call fails, or the create call
is reached and fails. -/
def stepFails (o : ClientFail) (inv : Inventory) : Intent → Bool
  | Intent.createSubnet c _ =>
    match o with
    | ClientFail.noFail => false
    | ClientFail.failOnFind => true
    | ClientFail.failOnCreate => if c ∈ inv.prefixes then false else true
  | Intent.createAddress ip _ _ _ _ _ _ _ =>
    match ip_address_version ip with
    | none => false
    | some v =>
      match o with
      | ClientFail.noFail => false
      | ClientFail.failOnFind => true
      | ClientFail.failOnCreate => if (ip ++ maskSuffix v) ∈ inv.addresses then false else true

/-- Test for a row whose first cell is a string equal, lowercased, to the
column-title literal. -/
def isTitleRow (row : List Cell) : Bool :=
  match getCol row 0 with
  | Cell.cstr s => decide (lowerChars s = ipAddressLit)
  | _ => false

/-! Helper lemmas about the reconciler. -/

/-- One dry-run step: the inventory is untouched, no call is issued, and
exactly the created counter of the matching kind is incremented. -/
theorem reconcileStep_dryRun (o : ClientFail) (inv : Inventory) (st : Stats) (i : Intent) :
    reconcileStep Mode.dryRun o inv st i =
      (inv,
       { st with
          prefixes_created := st.prefixes_created + (if isSubnetIntent i then 1 else 0),
          ips_created := st.ips_created + (if isValidAddressIntent i then 1 else 0) },
       []) := by
  cases i with
  | createSubnet c d =>
    simp [reconcileStep, create_prefix, isSubnetIntent, isValidAddressIntent]
  | createAddress ip h d m ow dev p n =>
    cases hv : ip_address_version ip with
    | none =>
      simp [reconcileStep, create_ip_address, hv, isSubnetIntent, isValidAddressIntent]
    | some v =>
      simp [reconcileStep, create_ip_address, hv, isSubnetIntent, isValidAddressIntent]

/-- A dry-run reconciliation run returns the inventory unchanged, an
empty call trace, and counters where only the created counts grew, by the
number of subnet intents and of valid address intents. -/
theorem reconcile_dryRun_eq (intents : List Intent) (oracle : List ClientFail)
    (inv : Inventory) (st : Stats) :
    reconcile Mode.dryRun intents oracle inv st =
      (inv,
       { st with
          prefixes_created := st.prefixes_created + countSubnetIntents intents,
          ips_created := st.ips_created + countValidAddressIntents intents },
       []) := by
  induction intents generalizing oracle st with
  | nil => simp [reconcile, countSubnetIntents, countValidAddressIntents]
  | cons i rest ih =>
    simp only [reconcile, reconcileStep_dryRun, ih, countSubnetIntents,
      countValidAddressIntents, List.nil_append]
    cases st
    simp
    omega

/-- C6: DryRun makes no client calls: for every intent sequence, in
DryRun mode no findSubnet, createSubnet, findAddress or createAddress
call is issued (the call trace is empty), the inventory is unchanged,
every CreateSubnet intent increments the subnets-created counter and
every valid CreateAddress intent increments the addresses-created
counter, with all other counters unchanged. -/
theorem dryRun_no_client_calls (intents : List Intent) (oracle : List ClientFail)
    (inv : Inventory) (st : Stats) :
    reconcile Mode.dryRun intents oracle inv st =
      (inv,
       { st with
          prefixes_created := st.prefixes_created + countSubnetIntents intents,
          ips_created := st.ips_created + countValidAddressIntents intents },
       []) :=
  reconcile_dryRun_eq intents oracle inv st

/-- C10: in DryRun mode the skipped counters are never incremented,
whatever the inventory already contains, and every subnet intent and
every valid address intent is tallied as created even when the target
record already exists in the inventory. -/
theorem dryRun_skipped_invariant (intents : List Intent) (oracle : List ClientFail)
    (inv : Inventory) (st : Stats) :
    (reconcile Mode.dryRun intents oracle inv st).2.1.prefixes_skipped = st.prefixes_skipped ∧
    (reconcile Mode.dryRun intents oracle inv st).2.1.ips_skipped = st.ips_skipped ∧
    (reconcile Mode.dryRun intents oracle inv st).2.1.prefixes_created =
      st.prefixes_created + countSubnetIntents intents ∧
    (reconcile Mode.dryRun intents oracle inv st).2.1.ips_created =
      st.ips_created + countValidAddressIntents intents := by
  rw [reconcile_dryRun_eq]
  exact ⟨rfl, rfl, rfl, rfl⟩

/-- A reconciliation step never removes keys from the inventory. -/
theorem reconcileStep_mono (mode : Mode) (o : ClientFail) (inv : Inventory)
    (st : Stats) (i : Intent) :
    (∀ x ∈ inv.prefixes, x ∈ (reconcileStep mode o inv st i).1.prefixes) ∧
    (∀ x ∈ inv.addresses, x ∈ (reconcileStep mode o inv st i).1.addresses) := by
  constructor <;> intro x hx <;> cases i <;>
    simp only [reconcileStep, create_prefix, create_ip_address] <;>
    (repeat' split) <;> simp_all [List.mem_cons]

/-- After a failure-free apply step, the target record of the processed
intent is present in the resulting inventory. -/
theorem reconcileStep_places (inv : Inventory) (st : Stats) (i : Intent) :
    intentPlaced (reconcileStep Mode.apply ClientFail.noFail inv st i).1 i := by
  cases i with
  | createSubnet c d =>
    simp only [reconcileStep, create_prefix, intentPlaced]
    split
    · simpa using ‹c ∈ inv.prefixes›
    · simp
  | createAddress ip h d m ow dev p n =>
    intro v hv2
    simp only [reconcileStep, create_ip_address, hv2]
    split <;> simp_all

/-- Placement of an intent is preserved by any inventory growth. -/
theorem intentPlaced_mono (inv inv' : Inventory) (i : Intent)
    (hp : ∀ x ∈ inv.prefixes, x ∈ inv'.prefixes)
    (ha : ∀ x ∈ inv.addresses, x ∈ inv'.addresses)
    (h : intentPlaced inv i) : intentPlaced inv' i := by
  cases i with
  | createSubnet c d => exact hp c h
  | createAddress ip h2 d m ow dev p n =>
    intro v hv
    exact ha _ (h v hv)

/-- A whole reconciliation run never removes keys from the inventory. -/
theorem reconcile_mono (mode : Mode) (intents : List Intent) (oracle : List ClientFail)
    (inv : Inventory) (st : Stats) :
    (∀ x ∈ inv.prefixes, x ∈ (reconcile mode intents oracle inv st).1.prefixes) ∧
    (∀ x ∈ inv.addresses, x ∈ (reconcile mode intents oracle inv st).1.addresses) := by
  induction intents generalizing oracle inv st with
  | nil => simp [reconcile]
  | cons i rest ih =>
    have hstep := reconcileStep_mono mode (oracle.headD ClientFail.noFail) inv st i
    have hrec := ih oracle.tail
      (reconcileStep mode (oracle.headD ClientFail.noFail) inv st i).1
      (reconcileStep mode (oracle.headD ClientFail.noFail) inv st i).2.1
    constructor <;> intro x hx
    · exact hrec.1 x (hstep.1 x hx)
    · exact hrec.2 x (hstep.2 x hx)

/-- After a failure-free apply run, every intent of the sequence has its
target record present in the resulting inventory. -/
theorem reconcile_covers (intents : List Intent) (inv : Inventory) (st : Stats) :
    ∀ i ∈ intents, intentPlaced (reconcile Mode.apply intents [] inv st).1 i := by
  induction intents generalizing inv st with
  | nil => simp
  | cons i rest ih =>
    intro j hj
    simp only [reconcile, List.headD_nil, List.tail_nil]
    rcases List.mem_cons.1 hj with hj | hj
    · subst hj
      exact intentPlaced_mono _ _ j (reconcile_mono Mode.apply rest [] _ _).1
        (reconcile_mono Mode.apply rest [] _ _).2 (reconcileStep_places inv st j)
    · exact ih _ _ j hj

/-- A failure-free apply run over intents whose targets are all already
present finds every one of them: the inventory is unchanged, nothing is
created, no error occurs, and exactly the skipped counters grow by the
numbers of subnet intents and of valid address intents. -/
theorem reconcile_apply_placed (intents : List Intent) (inv : Inventory) (st : Stats)
    (h : ∀ i ∈ intents, intentPlaced inv i) :
    (reconcile Mode.apply intents [] inv st).1 = inv ∧
    (reconcile Mode.apply intents [] inv st).2.1 =
      { st with
         prefixes_skipped := st.prefixes_skipped + countSubnetIntents intents,
         ips_skipped := st.ips_skipped + countValidAddressIntents intents } := by
  induction intents generalizing st with
  | nil => simp [reconcile, countSubnetIntents, countValidAddressIntents]
  | cons i rest ih =>
    have hi : intentPlaced inv i := h i (List.mem_cons_self i rest)
    have hrest : ∀ j ∈ rest, intentPlaced inv j :=
      fun j hj => h j (List.mem_cons_of_mem i hj)
    have hstep : reconcileStep Mode.apply ClientFail.noFail inv st i =
        (inv,
         { st with
            prefixes_skipped := st.prefixes_skipped + (if isSubnetIntent i then 1 else 0),
            ips_skipped := st.ips_skipped + (if isValidAddressIntent i then 1 else 0) },
         (match i with
          | Intent.createSubnet c _ => [Call.findSubnet c]
          | Intent.createAddress ip _ _ _ _ _ _ _ =>
            match ip_address_version ip with
            | some v => [Call.findAddress (ip ++ maskSuffix v)]
            | none => [])) := by
      cases i with
      | createSubnet c d =>
        simp only [intentPlaced] at hi
        simp [reconcileStep, create_prefix, hi, isSubnetIntent, isValidAddressIntent]
      | createAddress ip h2 d m ow dev p n =>
        cases hv : ip_address_version ip with
        | none =>
          simp [reconcileStep, create_ip_address, hv, isSubnetIntent, isValidAddressIntent]
        | some v =>
          have hmem := hi v hv
          simp [reconcileStep, create_ip_address, hv, hmem,
            isSubnetIntent, isValidAddressIntent]
    have hrec := ih
      { st with
         prefixes_skipped := st.prefixes_skipped + (if isSubnetIntent i then 1 else 0),
         ips_skipped := st.ips_skipped + (if isValidAddressIntent i then 1 else 0) } hrest
    simp only [reconcile, List.headD_nil, List.tail_nil, hstep]
    refine ⟨hrec.1, ?_⟩
    rw [hrec.2]
    simp only [countSubnetIntents, countValidAddressIntents]
    cases st
    simp
    omega

/-- C1: idempotence of Apply mode.  A failure-free Apply run followed by
a second failure-free Apply run against the inventory the first run
produced yields, on the second run, zero created subnets, zero created
addresses and zero errors, with every subnet intent counted as skipped
and every valid address intent counted as skipped: the lookup before
write finds everything the first run created or that already existed. -/
theorem apply_idempotent (intents : List Intent) (inv : Inventory) :
    (reconcile Mode.apply intents []
       (reconcile Mode.apply intents [] inv stats0).1 stats0).2.1 =
      ⟨0, countSubnetIntents intents, 0, countValidAddressIntents intents, 0⟩ := by
  have hcov := reconcile_covers intents inv stats0
  have hplaced := reconcile_apply_placed intents
    (reconcile Mode.apply intents [] inv stats0).1 stats0 hcov
  rw [hplaced.2]
  simp [stats0]

/-- A failing apply step leaves the inventory and every counter except
the errors counter unchanged, and increments errors by exactly one. -/
theorem reconcileStep_fail (o : ClientFail) (inv : Inventory) (st : Stats) (i : Intent)
    (h : stepFails o inv i = true) :
    (reconcileStep Mode.apply o inv st i).1 = inv ∧
    (reconcileStep Mode.apply o inv st i).2.1 = { st with errors := st.errors + 1 } := by
  cases i with
  | createSubnet c d =>
    simp only [stepFails] at h
    cases o with
    | noFail => simp at h
    | failOnFind => simp [reconcileStep, create_prefix]
    | failOnCreate =>
      by_cases hmem : c ∈ inv.prefixes
      · simp [hmem] at h
      · simp [reconcileStep, create_prefix, hmem]
  | createAddress ip h2 d m ow dev p n =>
    simp only [stepFails] at h
    cases hv : ip_address_version ip with
    | none => rw [hv] at h; simp at h
    | some v =>
      rw [hv] at h
      cases o with
      | noFail => simp at h
      | failOnFind => simp [reconcileStep, create_ip_address, hv]
      | failOnCreate =>
        by_cases hmem : (ip ++ maskSuffix v) ∈ inv.addresses
        · simp [hmem] at h
        · simp [reconcileStep, create_ip_address, hv, hmem]

/-- C7: continue-on-error for mutations.  In Apply mode, when the client
signals a failure while processing the head intent (during its find call,
or during its create call when one is made), the errors counter is
incremented by exactly one, the inventory is untouched, and the run
continues with the remaining intents: the final inventory and counters
are those of the run over the rest, started from the same inventory and
the errors counter one higher.  No failure aborts the run. -/
theorem apply_failure_continues (i : Intent) (rest : List Intent)
    (oracle : List ClientFail) (inv : Inventory) (st : Stats)
    (h : stepFails (oracle.headD ClientFail.noFail) inv i = true) :
    (reconcile Mode.apply (i :: rest) oracle inv st).1 =
      (reconcile Mode.apply rest oracle.tail inv
        { st with errors := st.errors + 1 }).1 ∧
    (reconcile Mode.apply (i :: rest) oracle inv st).2.1 =
      (reconcile Mode.apply rest oracle.tail inv
        { st with errors := st.errors + 1 }).2.1 := by
  have hfail := reconcileStep_fail (oracle.headD ClientFail.noFail) inv st i h
  simp only [reconcile]
  rw [hfail.1, hfail.2]
  exact ⟨rfl, rfl⟩

/-- Witness for C7 at a concrete failing find call. -/
theorem apply_failure_continues_witness :
    (reconcile Mode.apply [Intent.createSubnet (ofS ("10.0.0.0/8")) []]
       [ClientFail.failOnFind] ⟨[], []⟩ stats0).2.1 =
      (reconcile Mode.apply [] [] ⟨[], []⟩
        { stats0 with errors := stats0.errors + 1 }).2.1 :=
  (apply_failure_continues (Intent.createSubnet (ofS ("10.0.0.0/8")) []) []
    [ClientFail.failOnFind] ⟨[], []⟩ stats0 (by decide)).2

/-- The address carried by a client call concerning addresses. -/
def callAddrOf : Call → Option (List Char)
  | Call.findAddress a => some a
  | Call.createAddress a _ _ => some a
  | _ => none

/-- C4: lookup-key derivation.  For every address-creation intent whose
address is valid, in Apply mode the first client call is a findAddress
query on the address suffixed with the full-length mask, and every
address-related call of the step, the createAddress store included, uses
exactly that masked key: the slash-32 suffix when the address is IPv4 and
the slash-128 suffix when it is IPv6. -/
theorem address_lookup_key (o : ClientFail) (inv : Inventory) (st : Stats)
    (ip : List Char) (hostname description mac owner device port note : Cell)
    (v : Nat) (hv : ip_address_version ip = some v) :
    (create_ip_address Mode.apply o inv st ip hostname description mac owner
        device port note).2.2.head? =
      some (Call.findAddress (ip ++ maskSuffix v)) ∧
    (create_ip_address Mode.apply o inv st ip hostname description mac owner
        device port note).2.2.all
      (fun call => callAddrOf call == some (ip ++ maskSuffix v)) = true := by
  simp only [create_ip_address, hv]
  cases o <;> (repeat' split) <;> simp_all [callAddrOf]

/-- Witness for C4 at the IPv4 address of the worked example and at an
IPv6 address. -/
theorem address_lookup_key_witness :
    (create_ip_address Mode.apply ClientFail.noFail ⟨[], []⟩ stats0
        (ofS ("10.1.8.5")) Cell.cnone Cell.cnone Cell.cnone Cell.cnone
        Cell.cnone Cell.cnone Cell.cnone).2.2.head? =
      some (Call.findAddress (ofS ("10.1.8.5") ++ maskSuffix 4)) ∧
    (create_ip_address Mode.apply ClientFail.noFail ⟨[], []⟩ stats0
        (ofS ("fe80::1")) Cell.cnone Cell.cnone Cell.cnone Cell.cnone
        Cell.cnone Cell.cnone Cell.cnone).2.2.head? =
      some (Call.findAddress (ofS ("fe80::1") ++ maskSuffix 6)) :=
  ⟨(address_lookup_key ClientFail.noFail ⟨[], []⟩ stats0 (ofS ("10.1.8.5"))
      Cell.cnone Cell.cnone Cell.cnone Cell.cnone Cell.cnone Cell.cnone Cell.cnone
      4 (by decide)).1,
   (address_lookup_key ClientFail.noFail ⟨[], []⟩ stats0 (ofS ("fe80::1"))
      Cell.cnone Cell.cnone Cell.cnone Cell.cnone Cell.cnone Cell.cnone Cell.cnone
      6 (by decide)).1⟩

/-- The guarded truncation of the source, where an empty or falsy string
is stored as the empty string, is plain truncation to 200 characters. -/
theorem truncate_eq_take (l : List Char) :
    (if l.isEmpty then [] else l.take 200) = l.take 200 := by
  cases l <;> simp

/-- C5: description construction and truncation.  In Apply mode, the
description stored by a createAddress call is the join, with the
pipe-spaced separator, of the non-empty description field and, when a
non-empty note is present, the note prefixed with the note marker, the
whole truncated to at most 200 characters; and the description stored by
a createSubnet call is the intent description truncated to at most 200
characters. -/
theorem descriptions_truncated :
    (∀ (inv : Inventory) (st : Stats) (ip : List Char)
       (hostname description mac owner device port note : Cell) (v : Nat),
       ip_address_version ip = some v →
       (ip ++ maskSuffix v) ∉ inv.addresses →
       (create_ip_address Mode.apply ClientFail.noFail inv st ip hostname description
           mac owner device port note).2.2 =
         [Call.findAddress (ip ++ maskSuffix v),
          Call.createAddress (ip ++ maskSuffix v)
            (if notNA hostname then hostname else Cell.cstr [])
            (List.take 200 (joinWith (ofS (" | "))
              ((if notNA description && cellTruthy description
                then [strOfCell description] else []) ++
               (if notNA note && cellTruthy note
                then [ofS ("Note: ") ++ strOfCell note] else []))))]) ∧
    (∀ (inv : Inventory) (st : Stats) (subnet desc : List Char),
       subnet ∉ inv.prefixes →
       ( create_prefix Mode.apply ClientFail.noFail inv st subnet desc).2.2 =
         [Call.findSubnet subnet, Call.createSubnet subnet (List.take 200 desc)]) := by
  constructor
  · intro inv st ip hostname description mac owner device port note v hv hmem
    simp only [create_ip_address, hv]
    rw [if_neg hmem]
    rw [truncate_eq_take]
  · intro inv st subnet desc hmem
    simp only [ create_prefix]
    rw [if_neg hmem]
    rw [truncate_eq_take]

/-- Witness for C5: an address whose description cell holds 250
characters is stored with exactly its first 200 characters, and a subnet
description of 250 characters is likewise stored truncated to 200. -/
theorem descriptions_truncated_witness :
    (create_ip_address Mode.apply ClientFail.noFail ⟨[], []⟩ stats0
        (ofS ("10.1.8.5")) Cell.cnone (Cell.cstr (List.replicate 250 'a'))
        Cell.cnone Cell.cnone Cell.cnone Cell.cnone Cell.cnone).2.2 =
      [Call.findAddress (ofS ("10.1.8.5/32")),
       Call.createAddress (ofS ("10.1.8.5/32")) (Cell.cstr [])
         (List.replicate 200 'a')] ∧
    ( create_prefix Mode.apply ClientFail.noFail ⟨[], []⟩ stats0
        (ofS ("10.1.8.0/24")) (List.replicate 250 'b')).2.2 =
      [Call.findSubnet (ofS ("10.1.8.0/24")),
       Call.createSubnet (ofS ("10.1.8.0/24")) (List.replicate 200 'b')] := by
  constructor
  · rw [descriptions_truncated.1 ⟨[], []⟩ stats0 (ofS ("10.1.8.5")) Cell.cnone
      (Cell.cstr (List.replicate 250 'a')) Cell.cnone Cell.cnone Cell.cnone
      Cell.cnone Cell.cnone 4 (by decide) (by decide)]
    simp [joinWith, notNA, cellTruthy, strOfCell, maskSuffix, List.take_replicate]
    decide
  · rw [descriptions_truncated.2 ⟨[], []⟩ stats0 (ofS ("10.1.8.0/24"))
      (List.replicate 250 'b') (by decide)]
    simp [List.take_replicate]

/-- C2 counterexample: the row whose single cell is a bare valid CIDR is
textual and contains a slash, splitting it on the separator yields the
cell itself as the candidate CIDR (a valid network) and an empty
description, yet the classifier returns Noise rather than SubnetHeader,
because the source requires at least two separator-split segments. -/
theorem subnet_header_counterexample :
    ('/' ∈ ofS ("10.1.8.0/24")) ∧
    ip_network_valid ((splitDash (ofS ("10.1.8.0/24"))).headD []) = true ∧
    joinWith sepDash ((splitDash (ofS ("10.1.8.0/24"))).drop 1) = [] ∧
    classify [Cell.cstr (ofS ("10.1.8.0/24"))] = RowKind.noise := by decide

/-- C2 amended: for every row whose first cell is textual and contains a
slash, when splitting the cell on the literal separator yields at least
two segments and the first segment, stripped of surrounding whitespace,
parses as a valid IP network, the classifier returns SubnetHeader with
exactly the stripped first segment as cidr and the remaining segments
rejoined with the separator as description; otherwise, including when the
separator does not occur in the cell, the row falls through to the other
classification rules. -/
theorem subnet_header_amended (s p0 p1 : List Char) (ps : List (List Char))
    (rest : List Cell)
    (hslash : '/' ∈ s)
    (hsplit : splitDash s = p0 :: p1 :: ps)
    (hval : ip_network_valid (strip p0) = true) :
    classify (Cell.cstr s :: rest) =
      RowKind.subnetHeader (strip p0) (joinWith sepDash (p1 :: ps)) := by
  have hget : getCol (Cell.cstr s :: rest) 0 = Cell.cstr s := rfl
  have hparse : parse_subnet_header (Cell.cstr s) =
      some (strip p0, joinWith sepDash (p1 :: ps)) := by
    simp only [parse_subnet_header]
    rw [if_pos hslash, hsplit]
    simp [hval]
  simp only [classify, hget, hparse]

/-- Witness for the amended C2 at the header row of the worked example. -/
theorem subnet_header_amended_witness :
    classify [Cell.cstr (ofS ("10.1.8.0/24 - Lab"))] =
      RowKind.subnetHeader (strip (ofS ("10.1.8.0/24"))) (joinWith sepDash [ofS ("Lab")]) :=
  subnet_header_amended (ofS ("10.1.8.0/24 - Lab")) (ofS ("10.1.8.0/24"))
    (ofS ("Lab")) [] [] (by decide) (by decide) (by decide)

theorem splitCh_ne_nil (sep : Char) (s : List Char) : splitCh sep s ≠ [] := by
  cases s with
  | nil => simp [splitCh]
  | cons c rest =>
    simp only [splitCh]
    split
    · simp
    · cases h : splitCh sep rest <;> simp

theorem splitCh_of_not_mem (sep : Char) (s : List Char) (h : sep ∉ s) :
    splitCh sep s = [s] := by
  induction s with
  | nil => rfl
  | cons a rest ih =>
    have ha : ¬(a = sep) := fun e => h (e ▸ List.mem_cons_self a rest)
    have hr : sep ∉ rest := fun m => h (List.mem_cons_of_mem a m)
    simp only [splitCh, if_neg ha, ih hr]

theorem mem_splitCh (sep : Char) (s : List Char) (c : Char) (h : c ∈ s) :
    c = sep ∨ ∃ p, p ∈ splitCh sep s ∧ c ∈ p := by
  induction s with
  | nil => simp at h
  | cons a rest ih =>
    rcases List.mem_cons.1 h with rfl | hmem
    · by_cases ha : c = sep
      · exact Or.inl ha
      · refine Or.inr ?_
        rcases heq : splitCh sep rest with _ | ⟨p, ps⟩
        · exact absurd heq (splitCh_ne_nil sep rest)
        · exact ⟨c :: p, by simp [splitCh, if_neg ha, heq], List.mem_cons_self c p⟩
    · rcases ih hmem with hc | ⟨p, hp, hcp⟩
      · exact Or.inl hc
      · refine Or.inr ?_
        by_cases ha : a = sep
        · exact ⟨p, by simp [splitCh, if_pos ha, List.mem_cons_of_mem _ hp], hcp⟩
        · rcases heq : splitCh sep rest with _ | ⟨p0, ps0⟩
          · exact absurd heq (splitCh_ne_nil sep rest)
          · rw [heq] at hp
            rcases List.mem_cons.1 hp with rfl | hp2
            · exact ⟨a :: p, by simp [splitCh, if_neg ha, heq], List.mem_cons_of_mem a hcp⟩
            · exact ⟨p, by simp [splitCh, if_neg ha, heq, List.mem_cons_of_mem _ hp2], hcp⟩

theorem parseOctet_digits (s : List Char) (n : Nat) (h : parseOctet s = some n) :
    ∀ c ∈ s, isDigit c = true := by
  intro c hc
  simp only [parseOctet] at h
  split_ifs at h ; simp_all [List.all_eq_true]

theorem parseIPv4_chars (s : List Char) (v : Nat) (h : parseIPv4 s = some v) :
    ∀ c ∈ s, isDigit c = true ∨ c = '.' := by
  intro c hc
  rcases mem_splitCh '.' s c hc with rfl | ⟨p, hp, hcp⟩
  · exact Or.inr rfl
  · left
    simp only [parseIPv4] at h
    split at h
    · next a b cc d heq =>
      split at h
      · next x y z w ha hb hcc hd =>
        rw [heq] at hp
        simp only [List.mem_cons, List.not_mem_nil, or_false] at hp
        rcases hp with rfl | rfl | rfl | rfl
        · exact parseOctet_digits p x ha c hcp
        · exact parseOctet_digits p y hb c hcp
        · exact parseOctet_digits p z hcc c hcp
        · exact parseOctet_digits p w hd c hcp
      · simp at h
    · simp at h

theorem parseHextet_hex (s : List Char) (n : Nat) (h : parseHextet s = some n) :
    ∀ c ∈ s, isHexDigit c = true := by
  intro c hc
  simp only [parseHextet] at h
  split_ifs at h with h1
  simp only [Bool.and_eq_true] at h1
  exact (List.all_eq_true.1 h1.1.2) c hc

theorem hextetsVal_hex (acc : Nat) (ps : List (List Char)) (n : Nat)
    (h : hextetsVal acc ps = some n) :
    ∀ p ∈ ps, ∀ c ∈ p, isHexDigit c = true := by
  induction ps generalizing acc with
  | nil => simp
  | cons q qs ih =>
    intro p hp c hc
    simp only [hextetsVal] at h
    split at h
    · simp at h
    · next v hq =>
      rcases List.mem_cons.1 hp with rfl | hp2
      · exact parseHextet_hex p v hq c hc
      · exact ih _ h p hp2 c hc

theorem parseIPv6Core_chars (ps : List (List Char)) (n : Nat)
    (h : parseIPv6Core ps = some n) :
    ∀ p ∈ ps, ∀ c ∈ p, isHexDigit c = true := by
  intro p hp c hc
  simp only [parseIPv6Core] at h
  split at h
  · simp at h
  · split at h
    · split at h
      · exact hextetsVal_hex 0 ps n h p hp c hc
      · simp at h
    · next k hk =>
      have hkmem : k ∈ innerEmpties ps := by rw [hk]; exact List.mem_cons_self k []
      have hkfacts := List.mem_filter.1 hkmem
      have hklt : k < ps.length := List.mem_range.1 hkfacts.1
      have hkem : (ps.getD k [' ']).isEmpty = true := by
        have h2 := hkfacts.2
        simp only [Bool.and_eq_true, decide_eq_true_eq] at h2
        exact h2.2
      have hknil : ps.getD k [' '] = [] := by
        cases hgd : ps.getD k [' '] with
        | nil => rfl
        | cons a l => rw [hgd] at hkem; simp at hkem
      split at h
      · simp at h
      · next hi hah =>
        split at h
        · simp at h
        · next lo hal =>
          split at h
          · simp at h
          · split at h
            · simp at h
            · next hv hhv =>
              split at h
              · simp at h
              · next lv hlv =>
                have hdecomp : ps = ps.take k ++ (ps.getD k [' '] :: ps.drop (k + 1)) := by
                  rw [List.getD_eq_getElem ps [' '] hklt]
                  rw [← List.drop_eq_getElem_cons hklt]
                  exact (List.take_append_drop k ps).symm
                rw [hdecomp] at hp
                rcases List.mem_append.1 hp with hp1 | hp2
                · rcases htk : ps.take k with _ | ⟨q, qs⟩
                  · rw [htk] at hp1; simp at hp1
                  · rw [htk] at hah hp1
                    rcases hq : q with _ | ⟨c0, cs⟩
                    · rw [hq] at hah hp1
                      have hred : adjustHead ([] :: qs) =
                          if qs.isEmpty then some [] else none := rfl
                      rw [hred] at hah
                      split_ifs at hah with hqs
                      have hqsnil : qs = [] := by
                        cases qs with
                        | nil => rfl
                        | cons x xs => simp at hqs
                      rw [hqsnil] at hp1
                      rcases List.mem_cons.1 hp1 with rfl | hp3
                      · simp at hc
                      · simp at hp3
                    · rw [hq] at hah hp1
                      have hred : adjustHead ((c0 :: cs) :: qs) =
                          some ((c0 :: cs) :: qs) := rfl
                      rw [hred] at hah
                      rw [← Option.some_inj.1 hah] at hhv
                      exact hextetsVal_hex 0 _ hv hhv p hp1 c hc
                · rcases List.mem_cons.1 hp2 with rfl | hp3
                  · rw [hknil] at hc; simp at hc
                  · cases hgl : (ps.drop (k + 1)).getLast? with
                    | none =>
                      have hnil : ps.drop (k + 1) = [] := by
                        simpa using List.getLast?_eq_none_iff.1 hgl
                      rw [hnil] at hp3; simp at hp3
                    | some q =>
                      rcases hq : q with _ | ⟨c0, cs⟩
                      · rw [hq] at hgl
                        have hred : adjustLast (ps.drop (k + 1)) =
                            if (ps.drop (k + 1)).length = 1 then some [] else none := by
                          unfold adjustLast
                          rw [hgl]
                        rw [hred] at hal
                        split_ifs at hal with hlen1
                        rcases List.length_eq_one.1 hlen1 with ⟨a, ha⟩
                        rw [ha] at hgl hp3
                        have haq : a = [] := by simpa using hgl
                        rw [haq] at hp3
                        rcases List.mem_cons.1 hp3 with rfl | hp4
                        · simp at hc
                        · simp at hp4
                      · have hred : adjustLast (ps.drop (k + 1)) =
                            some (ps.drop (k + 1)) := by
                          unfold adjustLast
                          rw [hgl, hq]
                        rw [hred] at hal
                        rw [← Option.some_inj.1 hal] at hlv
                        exact hextetsVal_hex 0 _ lv hlv p hp3 c hc
    · simp at h

theorem isDigit_isHexDigit (c : Char) (h : isDigit c = true) : isHexDigit c = true := by
  simp [isHexDigit, h]

theorem parseIPv6_chars (s : List Char) (n : Nat) (h : parseIPv6 s = some n) :
    ∀ c ∈ s, isHexDigit c = true ∨ c = ':' ∨ c = '.' := by
  intro c hc
  rcases mem_splitCh ':' s c hc with rfl | ⟨p, hp, hcp⟩
  · exact Or.inr (Or.inl rfl)
  · simp only [parseIPv6] at h
    split at h
    · simp at h
    · split at h
      · simp at h
      · next last hgl =>
        rcases List.getLast?_eq_some_iff.1 hgl with ⟨front, hfront⟩
        split at h
        · split at h
          · simp at h
          · next v4 hv4 =>
            rw [hfront] at hp
            rcases List.mem_append.1 hp with hpf | hpl
            · refine Or.inl ?_
              have hcore := parseIPv6Core_chars _ n h p ?_ c hcp
              · exact hcore
              · rw [hfront, List.dropLast_concat]
                exact List.mem_append_left _ hpf
            · have hpeq : p = last := by simpa using hpl
              rw [hpeq] at hcp
              rcases parseIPv4_chars last v4 hv4 c hcp with hd | hdot
              · exact Or.inl (isDigit_isHexDigit c hd)
              · exact Or.inr (Or.inr hdot)
        · exact Or.inl (parseIPv6Core_chars _ n h p hp c hcp)

theorem parseIPv4_has_dot (s : List Char) (v : Nat) (h : parseIPv4 s = some v) :
    '.' ∈ s := by
  by_contra hdot
  rw [parseIPv4, splitCh_of_not_mem '.' s hdot] at h
  simp at h

theorem parseIPv6_has_colon (s : List Char) (n : Nat) (h : parseIPv6 s = some n) :
    ':' ∈ s := by
  by_contra hcol
  rw [parseIPv6] at h
  simp only [splitCh_of_not_mem ':' s hcol] at h
  simp at h

theorem version_chars (s : List Char) (v : Nat) (h : ip_address_version s = some v) :
    ∀ c ∈ s, isHexDigit c = true ∨ c = ':' ∨ c = '.' := by
  intro c hc
  rw [ip_address_version] at h
  split_ifs at h with h4 h6
  · cases hv4 : parseIPv4 s with
    | none => rw [hv4] at h4; simp at h4
    | some w =>
      rcases parseIPv4_chars s w hv4 c hc with hd | hdot
      · exact Or.inl (isDigit_isHexDigit c hd)
      · exact Or.inr (Or.inr hdot)
  · cases hv6 : parseIPv6 s with
    | none => rw [hv6] at h6; simp at h6
    | some w => exact parseIPv6_chars s w hv6 c hc

theorem version_sep (s : List Char) (v : Nat) (h : ip_address_version s = some v) :
    '.' ∈ s ∨ ':' ∈ s := by
  rw [ip_address_version] at h
  split_ifs at h with h4 h6
  · cases hv4 : parseIPv4 s with
    | none => rw [hv4] at h4; simp at h4
    | some w => exact Or.inl (parseIPv4_has_dot s w hv4)
  · cases hv6 : parseIPv6 s with
    | none => rw [hv6] at h6; simp at h6
    | some w => exact Or.inr (parseIPv6_has_colon s w hv6)

theorem version_no_slash (s : List Char) (v : Nat) (h : ip_address_version s = some v) :
    '/' ∉ s := by
  intro hmem
  rcases version_chars s v h '/' hmem with hx | hx | hx <;> simp [isHexDigit, isDigit] at hx

theorem version_no_space (s : List Char) (v : Nat) (h : ip_address_version s = some v) :
    ∀ c ∈ s, isSpace c = false := by
  intro c hc
  by_contra hsp
  have hsp2 : isSpace c = true := by
    cases hb : isSpace c
    · exact absurd hb hsp
    · rfl
  simp only [isSpace, Bool.or_eq_true, decide_eq_true_eq] at hsp2
  have hx := version_chars s v h c hc
  rcases hsp2 with ((((rfl | rfl) | rfl) | rfl) | rfl) | rfl <;> revert hx <;> decide

theorem dropWhile_eq_self_of (p : Char → Bool) (s : List Char)
    (h : ∀ c ∈ s, p c = false) : s.dropWhile p = s := by
  cases s with
  | nil => rfl
  | cons a rest =>
    simp [List.dropWhile_cons, h a (List.mem_cons_self a rest)]

theorem strip_of_no_space (s : List Char) (h : ∀ c ∈ s, isSpace c = false) :
    strip s = s := by
  unfold strip
  rw [dropWhile_eq_self_of isSpace s h]
  rw [dropWhile_eq_self_of isSpace s.reverse (fun c hc => h c (List.mem_reverse.1 hc))]
  exact List.reverse_reverse s

theorem version_strip (s : List Char) (v : Nat) (h : ip_address_version s = some v) :
    strip s = s :=
  strip_of_no_space s (version_no_space s v h)

theorem version_not_title (s : List Char) (v : Nat) (h : ip_address_version s = some v) :
    ¬(lowerChars s = ipAddressLit) := by
  intro heq
  rcases version_sep s v h with hdot | hcol
  · have hm : ('.' : Char).toLower ∈ lowerChars s := List.mem_map_of_mem Char.toLower hdot
    rw [heq] at hm
    revert hm
    decide
  · have hm : (':' : Char).toLower ∈ lowerChars s := List.mem_map_of_mem Char.toLower hcol
    rw [heq] at hm
    revert hm
    decide

theorem version_header_none (s : List Char) (v : Nat)
    (h : ip_address_version s = some v) :
    parse_subnet_header (Cell.cstr s) = none := by
  simp only [parse_subnet_header]
  rw [if_neg (version_no_slash s v h)]

theorem getCol_out (row : List Cell) (i : Nat) (h : row.length ≤ i) :
    getCol row i = Cell.cnone := by
  induction row generalizing i with
  | nil => cases i <;> rfl
  | cons a r ih =>
    cases i with
    | zero => simp at h
    | succ j => exact ih j (Nat.le_of_succ_le_succ h)

/-- C3: address-row classification.  For every row whose first cell is a
string that parses as a syntactically valid IPv4 or IPv6 host address,
the classifier returns AddressData with that address and the fields
stateLabel, description, hostname, mac, owner, device, port and note
read positionally from columns one through eight; a column the row does
not have yields the null marker rather than an error. -/
theorem address_row_classified (s : List Char) (row : List Cell) (v : Nat)
    (h0 : getCol row 0 = Cell.cstr s)
    (hv : ip_address_version s = some v) :
    classify row = RowKind.addressData s (getCol row 1) (getCol row 2)
      (getCol row 3) (getCol row 4) (getCol row 5) (getCol row 6)
      (getCol row 7) (getCol row 8) ∧
    (∀ i, row.length ≤ i → getCol row i = Cell.cnone) := by
  refine ⟨?_, fun i hi => getCol_out row i hi⟩
  have hstrip : strip s = s := version_strip s v hv
  simp only [classify, h0, version_header_none s v hv]
  rw [if_neg (version_not_title s v hv)]
  simp only [classifyAddr, notNA, strOfCell]
  rw [hstrip, hv]
  simp

/-- Witness for C3 at the data row of the worked example. -/
theorem address_row_classified_witness :
    classify [Cell.cstr (ofS ("10.1.8.5")), Cell.cstr (ofS ("Used")),
        Cell.cstr (ofS ("Server A"))] =
      RowKind.addressData (ofS ("10.1.8.5")) (Cell.cstr (ofS ("Used")))
        (Cell.cstr (ofS ("Server A"))) Cell.cnone Cell.cnone Cell.cnone
        Cell.cnone Cell.cnone Cell.cnone :=
  (address_row_classified (ofS ("10.1.8.5"))
    [Cell.cstr (ofS ("10.1.8.5")), Cell.cstr (ofS ("Used")),
     Cell.cstr (ofS ("Server A"))] 4 rfl (by decide)).1

/-- C8 counterexample: the row whose first cell equals the column-title
literal only after trimming surrounding whitespace is classified as
Noise, not as ColumnTitle: the source compares the lowercased cell
without stripping it. -/
theorem title_row_counterexample :
    strip (lowerChars (ofS (" IP Address "))) = ipAddressLit ∧
    classify [Cell.cstr (ofS (" IP Address "))] = RowKind.noise := by decide

/-- C8 amended: for every row whose first cell, lowercased but not
trimmed, equals the column-title literal exactly, the classifier returns
ColumnTitle, and the row emits no intent and leaves the current-subnet
context unchanged; surrounding whitespace is not tolerated. -/
theorem title_row_amended (s : List Char) (rest : List Cell)
    (ctx : Option (List Char × List Char))
    (h : lowerChars s = ipAddressLit) :
    classify (Cell.cstr s :: rest) = RowKind.columnTitle ∧
    processRow ctx (Cell.cstr s :: rest) = (ctx, []) := by
  have hslash : '/' ∉ s := by
    intro hmem
    have h2 : ('/' : Char).toLower ∈ lowerChars s := List.mem_map_of_mem Char.toLower hmem
    rw [h] at h2
    revert h2
    decide
  have hget : getCol (Cell.cstr s :: rest) 0 = Cell.cstr s := rfl
  have hparse : parse_subnet_header (Cell.cstr s) = none := by
    simp only [parse_subnet_header]
    rw [if_neg hslash]
  have hcls : classify (Cell.cstr s :: rest) = RowKind.columnTitle := by
    simp only [classify, hget, hparse]
    rw [if_pos h]
  exact ⟨hcls, by simp only [processRow, hcls]⟩

/-- Witness for the amended C8 at a mixed-case title row without
whitespace. -/
theorem title_row_amended_witness :
    classify [Cell.cstr (ofS ("IP Address"))] = RowKind.columnTitle ∧
    processRow none [Cell.cstr (ofS ("IP Address"))] = (none, []) :=
  title_row_amended (ofS ("IP Address")) [] none (by decide)

/-- C9: classification totality and silent skipping.  Classification and
row processing are total functions of the embedding (the parse failures
of the source are caught and modelled as none branches), and every row
that is not a valid subnet header, not a column-title row, and whose
first cell is null or does not parse as a host address is classified as
Noise: it emits no intent, so prepending it to any row stream leaves the
parsed intent sequence, and hence every counter of every reconciliation
run, unchanged. -/
theorem noise_row_skipped (row : List Cell) (rows : List (List Cell))
    (ctx : Option (List Char × List Char))
    (h1 : parse_subnet_header (getCol row 0) = none)
    (h2 : isTitleRow row = false)
    (h3 : notNA (getCol row 0) = false ∨
          ip_address_version (strip (strOfCell (getCol row 0))) = none) :
    classify row = RowKind.noise ∧
    parseIntentsFrom ctx (row :: rows) = parseIntentsFrom ctx rows ∧
    (∀ mode oracle inv st,
      reconcile mode (parseIntentsFrom ctx (row :: rows)) oracle inv st =
        reconcile mode (parseIntentsFrom ctx rows) oracle inv st) := by
  have haddr : classifyAddr (getCol row 0) row = RowKind.noise := by
    rcases h3 with h3 | h3
    · simp [classifyAddr, h3]
    · cases hn : notNA (getCol row 0) <;> simp [classifyAddr, h3, hn]
  have hnoise : classify row = RowKind.noise := by
    cases hg : getCol row 0 with
    | cstr s =>
      rw [hg] at h1 haddr
      have ht : ¬(lowerChars s = ipAddressLit) := by
        simp only [isTitleRow, hg, decide_eq_false_iff_not] at h2
        exact h2
      simp only [classify, hg, h1]
      rw [if_neg ht]
      exact haddr
    | cnum n =>
      rw [hg] at haddr
      simp only [classify, hg]
      exact haddr
    | cnone =>
      rw [hg] at haddr
      simp only [classify, hg]
      exact haddr
  have hpi : parseIntentsFrom ctx (row :: rows) = parseIntentsFrom ctx rows := by
    simp only [parseIntentsFrom, processRow, hnoise]
    simp
  exact ⟨hnoise, hpi, fun mode oracle inv st => by rw [hpi]⟩

/-- Witness for C9 at the invalid-token row of the worked example. -/
theorem noise_row_skipped_witness :
    classify [Cell.cstr (ofS ("not-an-ip"))] = RowKind.noise ∧
    parseIntentsFrom none [[Cell.cstr (ofS ("not-an-ip"))]] = parseIntentsFrom none [] :=
  ⟨(noise_row_skipped [Cell.cstr (ofS ("not-an-ip"))] [] none (by decide) (by decide)
      (Or.inr (by decide))).1,
   (noise_row_skipped [Cell.cstr (ofS ("not-an-ip"))] [] none (by decide) (by decide)
      (Or.inr (by decide))).2.1⟩
